import Mathlib

/-!
Verification development for the bank-deposit manager (Rust sources
`src/main.rs` and `src/utils.rs`).

The numeric type `f32` of the source is modelled by `ℚ` (exact rational
arithmetic); `chrono::NaiveDateTime` is modelled by a calendar datetime
with second precision: an absolute month number (`12 * year + month0` in
the proleptic Gregorian calendar), a 1-based day of month, and a
second-of-day.  `checked_add_months(Months::new(1))` adds one to the
absolute month and clamps the day to the length of the target month,
exactly as chrono does; subtraction of datetimes yields a signed number
of seconds and `Duration::num_days` truncates towards zero, which is
`Int.tdiv` by 86400.
-/

/-- Leap year test of the proleptic Gregorian calendar, as used by chrono. -/
def isLeap (y : Int) : Bool :=
  y % 4 == 0 && (y % 100 != 0 || y % 400 == 0)

/-- Number of days of the absolute month `m` (month `m % 12` of year `m / 12`,
with floor rounding for negative `m`). -/
def daysInMonth (m : Int) : Int :=
  let m0 := m.emod 12
  if m0 = 1 then (if isLeap (m.fdiv 12) then 29 else 28)
  else if m0 = 3 ∨ m0 = 5 ∨ m0 = 8 ∨ m0 = 10 then 30
  else 31

/-- Days from the epoch (start of month 0) to the start of absolute month `m`,
for nonnegative month counts. -/
def daysBeforeMonthNat : Nat → Int
  | 0 => 0
  | n + 1 => daysBeforeMonthNat n + daysInMonth n

/-- Days from the start of absolute month `-n` to the epoch. -/
def daysBeforeMonthNeg : Nat → Int
  | 0 => 0
  | n + 1 => daysBeforeMonthNeg n - daysInMonth (-(n + 1 : Int))

/-- Days from the epoch to the start of absolute month `m` (negative for
months before the epoch). -/
def daysBeforeMonth (m : Int) : Int :=
  if 0 ≤ m then daysBeforeMonthNat m.toNat else daysBeforeMonthNeg (-m).toNat

theorem daysInMonth_pos (m : Int) : 28 ≤ daysInMonth m := by
  unfold daysInMonth
  dsimp only
  split
  · split <;> omega
  · split <;> omega

theorem daysBeforeMonth_succ (m : Int) :
    daysBeforeMonth (m + 1) = daysBeforeMonth m + daysInMonth m := by
  unfold daysBeforeMonth
  rcases lt_trichotomy m (-1) with h | h | h
  · rw [if_neg (by omega), if_neg (by omega)]
    have h1 : (-m).toNat = (-(m + 1)).toNat + 1 := by omega
    rw [h1]
    show daysBeforeMonthNeg (-(m+1)).toNat =
      daysBeforeMonthNeg (-(m+1)).toNat - daysInMonth (-(((-(m+1)).toNat : Int) + 1)) + daysInMonth m
    have h2 : -(((-(m+1)).toNat : Int) + 1) = m := by omega
    rw [h2]; ring
  · subst h
    rw [if_pos (by omega), if_neg (by omega)]
    show daysBeforeMonthNat 0 = daysBeforeMonthNeg 1 + daysInMonth (-1)
    show (0 : Int) = 0 - daysInMonth (-(0 + 1 : Int)) + daysInMonth (-1)
    norm_num
  · rw [if_pos (by omega), if_pos (by omega)]
    have h1 : (m + 1).toNat = m.toNat + 1 := by omega
    rw [h1]
    show daysBeforeMonthNat m.toNat + daysInMonth m.toNat = daysBeforeMonthNat m.toNat + daysInMonth m
    have h2 : (m.toNat : Int) = m := by omega
    rw [h2]

/-- Model of `chrono::NaiveDateTime`: absolute month, 1-based day of month
(valid for that month), and second of day. -/
structure NaiveDateTime where
  month : Int
  day : Int
  sod : Int
  day_ge : 1 ≤ day
  day_le : day ≤ daysInMonth month
  sod_ge : 0 ≤ sod
  sod_lt : sod < 86400

/-- Seconds from the epoch to this datetime; datetime comparison and
subtraction in the source are comparison and subtraction of this value. -/
def toSecs (d : NaiveDateTime) : Int :=
  (daysBeforeMonth d.month + d.day - 1) * 86400 + d.sod

/-- `checked_add_months(Months::new(n))`: advance by `n` months, clamping the
day of month to the length of the target month (chrono semantics). -/
def addMonths (d : NaiveDateTime) (n : Nat) : NaiveDateTime where
  month := d.month + n
  day := min d.day (daysInMonth (d.month + n))
  sod := d.sod
  day_ge := le_min d.day_ge (by have := daysInMonth_pos (d.month + n); omega)
  day_le := min_le_right _ _
  sod_ge := d.sod_ge
  sod_lt := d.sod_lt

/-- `Duration::num_days`: whole days of a signed number of seconds, truncated
towards zero (Rust integer division). -/
def numDays (secs : Int) : Int := Int.tdiv secs 86400

theorem toSecs_addMonths_one (d : NaiveDateTime) :
    toSecs d + 86400 ≤ toSecs (addMonths d 1) := by
  have hle := d.day_le
  have hge := d.day_ge
  have hdim := daysInMonth_pos (d.month + 1)
  have hdim0 := daysInMonth_pos d.month
  unfold toSecs addMonths
  dsimp only
  rw [show d.month + (1 : Nat) = d.month + 1 by norm_num]
  rw [daysBeforeMonth_succ]
  have : d.day + 1 ≤ daysInMonth d.month + min d.day (daysInMonth (d.month + 1)) := by
    omega
  omega

theorem numDays_nonneg {s : Int} (h : 0 ≤ s) : 0 ≤ numDays s :=
  Int.tdiv_nonneg h (by omega)

theorem numDays_pos {s : Int} (h : 86400 ≤ s) : 1 ≤ numDays s := by
  unfold numDays
  rw [Int.tdiv_eq_ediv (by omega) (by omega)]
  omega

theorem numDays_zero : numDays 0 = 0 := rfl

/-- `enum PayStrategy` of `main.rs`. -/
inductive PayStrategy where
  | Capitalization
  | Once
deriving DecidableEq, Repr

/-- `enum DepositStatus` of `main.rs`. -/
inductive DepositStatus where
  | Active
  | Closed
deriving DecidableEq, Repr

/-- `struct Deposit` of `main.rs`. -/
structure Deposit where
  bank : String
  name : String
  date_open : NaiveDateTime
  date_close : NaiveDateTime
  amount : ℚ
  percent : ℚ
  status : DepositStatus
  pay_strategy : PayStrategy

/-- `struct Bank` of `main.rs`. -/
structure Bank where
  name : String
  percent : ℚ
  min_capacity : ℚ
  max_capacity : ℚ
  transfer_comission : ℚ
  pay_strategy : PayStrategy
deriving DecidableEq, Repr

/-- The `while !stop` loop of `calc_earn` (`main.rs` lines 378-398).  Walks in
one-month steps from `date`, clipping the final step at `de`; per period the
interest is `amount * payable_days * rpd`, added to `amount` under
`Capitalization`.  Returns the accumulated interest together with the number
of executed loop iterations. -/
def calcEarnLoop (rpd : ℚ) (strat : PayStrategy) (de : NaiveDateTime)
    (amount : ℚ) (date : NaiveDateTime) : ℚ × Nat :=
  if h : toSecs de < toSecs (addMonths date 1) then
    (amount * ((numDays (toSecs de - toSecs date) : Int) : ℚ) * rpd, 1)
  else
    let earn := amount * ((numDays (toSecs (addMonths date 1) - toSecs date) : Int) : ℚ) * rpd
    let r := calcEarnLoop rpd strat de
      (if strat = PayStrategy.Capitalization then amount + earn else amount) (addMonths date 1)
    (earn + r.1, r.2 + 1)
termination_by (toSecs de - toSecs date).toNat
decreasing_by
  have h2 := toSecs_addMonths_one date
  omega

theorem calcEarnLoop_stop {rpd : ℚ} {strat : PayStrategy} {de : NaiveDateTime}
    {amount : ℚ} {date : NaiveDateTime} (h : toSecs de < toSecs (addMonths date 1)) :
    calcEarnLoop rpd strat de amount date =
      (amount * ((numDays (toSecs de - toSecs date) : Int) : ℚ) * rpd, 1) := by
  rw [calcEarnLoop.eq_def, dif_pos h]

theorem calcEarnLoop_step {rpd : ℚ} {strat : PayStrategy} {de : NaiveDateTime}
    {amount : ℚ} {date : NaiveDateTime} (h : ¬ toSecs de < toSecs (addMonths date 1)) :
    calcEarnLoop rpd strat de amount date =
      (amount * ((numDays (toSecs (addMonths date 1) - toSecs date) : Int) : ℚ) * rpd +
        (calcEarnLoop rpd strat de
          (if strat = PayStrategy.Capitalization
            then amount + amount * ((numDays (toSecs (addMonths date 1) - toSecs date) : Int) : ℚ) * rpd
            else amount) (addMonths date 1)).1,
       (calcEarnLoop rpd strat de
          (if strat = PayStrategy.Capitalization
            then amount + amount * ((numDays (toSecs (addMonths date 1) - toSecs date) : Int) : ℚ) * rpd
            else amount) (addMonths date 1)).2 + 1) := by
  rw [calcEarnLoop.eq_def, dif_neg h]

/-- `calc_earn` of `main.rs` (lines 370-400). -/
def calc_earn (initial_amount : ℚ) (percent : ℚ) (date_start date_end : NaiveDateTime)
    (pay_strategy : PayStrategy) : ℚ :=
  (calcEarnLoop (percent / 365.25) pay_strategy date_end initial_amount date_start).1

/-- `calc_depo_earn` of `main.rs` (lines 360-368). -/
def calc_depo_earn (deposit : Deposit) (date_end : NaiveDateTime) : ℚ :=
  calc_earn deposit.amount deposit.percent deposit.date_open date_end deposit.pay_strategy

theorem mul_mul_le_mul_mul {p a d rpd : ℚ} (hpa : p ≤ a) (hd : 0 ≤ d) (hr : 0 ≤ rpd) :
    p * d * rpd ≤ a * d * rpd :=
  mul_le_mul_of_nonneg_right (mul_le_mul_of_nonneg_right hpa hd) hr

/-- The accrued interest under `Once` with running amount `p` is at most the
accrued interest under `Capitalization` with running amount `a ≥ p`, for a
nonnegative daily rate. -/
theorem calcEarnLoop_le {rpd : ℚ} (hr : 0 ≤ rpd) (de : NaiveDateTime) :
    ∀ (n : Nat) (date : NaiveDateTime) (p a : ℚ),
      (toSecs de - toSecs date).toNat ≤ n → 0 ≤ p → p ≤ a → toSecs date ≤ toSecs de →
      (calcEarnLoop rpd PayStrategy.Once de p date).1 ≤
        (calcEarnLoop rpd PayStrategy.Capitalization de a date).1 := by
  intro n
  induction n with
  | zero =>
    intro date p a hb hp hpa hdd
    have hstop : toSecs de < toSecs (addMonths date 1) := by
      have := toSecs_addMonths_one date; omega
    rw [calcEarnLoop_stop hstop, calcEarnLoop_stop hstop]
    dsimp only
    have hd : (0 : ℚ) ≤ ((numDays (toSecs de - toSecs date) : Int) : ℚ) := by
      exact_mod_cast numDays_nonneg (by omega)
    exact mul_mul_le_mul_mul hpa hd hr
  | succ n ih =>
    intro date p a hb hp hpa hdd
    by_cases hstop : toSecs de < toSecs (addMonths date 1)
    · rw [calcEarnLoop_stop hstop, calcEarnLoop_stop hstop]
      dsimp only
      have hd : (0 : ℚ) ≤ ((numDays (toSecs de - toSecs date) : Int) : ℚ) := by
        exact_mod_cast numDays_nonneg (by omega)
      exact mul_mul_le_mul_mul hpa hd hr
    · have hmon := toSecs_addMonths_one date
      rw [calcEarnLoop_step hstop, calcEarnLoop_step hstop]
      dsimp only
      rw [if_neg (by decide : ¬ PayStrategy.Once = PayStrategy.Capitalization),
          if_pos rfl]
      have hd : (0 : ℚ) ≤ ((numDays (toSecs (addMonths date 1) - toSecs date) : Int) : ℚ) := by
        exact_mod_cast numDays_nonneg (by omega)
      have hearn : (0 : ℚ) ≤ a * ((numDays (toSecs (addMonths date 1) - toSecs date) : Int) : ℚ) * rpd := by
        have := mul_mul_le_mul_mul hpa hd hr
        have h0 := mul_mul_le_mul_mul (le_trans hp hpa) hd hr
        nlinarith [mul_mul_le_mul_mul (le_refl (0 : ℚ)) hd hr]
      refine add_le_add (mul_mul_le_mul_mul hpa hd hr) ?_
      refine ih (addMonths date 1) p (a + _) (by omega) hp (by linarith) (by omega)

/-- Strict version of `calcEarnLoop_le`: once the capitalised amount strictly
exceeds the simple-interest principal, a positive daily rate and at least one
whole remaining day give strictly more interest. -/
theorem calcEarnLoop_lt {rpd : ℚ} (hr : 0 < rpd) {de : NaiveDateTime}
    {p a : ℚ} {date : NaiveDateTime} (hp : 0 ≤ p) (hpa : p < a)
    (hdd : toSecs date + 86400 ≤ toSecs de) :
    (calcEarnLoop rpd PayStrategy.Once de p date).1 <
      (calcEarnLoop rpd PayStrategy.Capitalization de a date).1 := by
  by_cases hstop : toSecs de < toSecs (addMonths date 1)
  · rw [calcEarnLoop_stop hstop, calcEarnLoop_stop hstop]
    dsimp only
    have hd : (1 : ℚ) ≤ ((numDays (toSecs de - toSecs date) : Int) : ℚ) := by
      exact_mod_cast numDays_pos (by omega)
    have h1 : p * ((numDays (toSecs de - toSecs date) : Int) : ℚ) <
        a * ((numDays (toSecs de - toSecs date) : Int) : ℚ) :=
      mul_lt_mul_of_pos_right hpa (by linarith)
    exact mul_lt_mul_of_pos_right h1 hr
  · have hmon := toSecs_addMonths_one date
    rw [calcEarnLoop_step hstop, calcEarnLoop_step hstop]
    dsimp only
    rw [if_neg (by decide : ¬ PayStrategy.Once = PayStrategy.Capitalization),
        if_pos rfl]
    have hd : (1 : ℚ) ≤ ((numDays (toSecs (addMonths date 1) - toSecs date) : Int) : ℚ) := by
      exact_mod_cast numDays_pos (by omega)
    have h1 : p * ((numDays (toSecs (addMonths date 1) - toSecs date) : Int) : ℚ) * rpd <
        a * ((numDays (toSecs (addMonths date 1) - toSecs date) : Int) : ℚ) * rpd :=
      mul_lt_mul_of_pos_right (mul_lt_mul_of_pos_right hpa (by linarith)) hr
    have hearn : (0 : ℚ) ≤ a * ((numDays (toSecs (addMonths date 1) - toSecs date) : Int) : ℚ) * rpd := by
      have : (0:ℚ) ≤ a := le_of_lt (lt_of_le_of_lt hp hpa)
      positivity
    refine add_lt_add_of_lt_of_le h1 ?_
    refine calcEarnLoop_le (le_of_lt hr) de (toSecs de - toSecs (addMonths date 1)).toNat
      (addMonths date 1) p (a + _) (le_refl _) hp (by linarith) (by omega)


/-- Total-order comparison of rationals, modelling `f32::partial_cmp` on the
(NaN-free) values of the program. -/
def cmpRat (x y : ℚ) : Ordering :=
  if x < y then Ordering.lt else if x = y then Ordering.eq else Ordering.gt

/-- The comparator passed to `order_by` in `print_suggestions` (line 164):
`|b1, b2| b2.percent.partial_cmp(&b1.percent)`, i.e. descending by rate. -/
def bankCmp (b1 b2 : Bank) : Ordering := cmpRat b2.percent b1.percent

/-- The "`a` may stay before `b`" relation induced by a comparator: the
comparator does not order `a` strictly after `b`. -/
def leOfCmp {α : Type} (cmp : α → α → Ordering) (a b : α) : Prop :=
  cmp a b ≠ Ordering.gt

instance {α : Type} (cmp : α → α → Ordering) : DecidableRel (leOfCmp cmp) :=
  fun a b => inferInstanceAs (Decidable (cmp a b ≠ Ordering.gt))

/-- `order_by` of `utils.rs` (lines 5-12): a stable sort by the comparator.
Rust's `sort_by` is a stable sort, whose output is uniquely determined by the
comparator and the input order; it is modelled by stable insertion sort. -/
def order_by {α : Type} (cmp : α → α → Ordering) (l : List α) : List α :=
  List.insertionSort (leOfCmp cmp) l

/-- `index_by` of `utils.rs` (lines 33-45): builds a map by inserting every
item under its key, later items overwriting earlier ones.  The `HashMap` is
modelled by its lookup function. -/
def index_by {α K : Type} [DecidableEq K] (l : List α) (key : α → K) : K → Option α :=
  l.foldl (fun m item => Function.update m (key item) (some item)) (fun _ => none)

/-- `group_by` of `utils.rs` (lines 14-31): maps a key to the items having
that key, in input order (absent if there are none).  The `HashMap` is
modelled by its lookup function. -/
def group_by {α K : Type} [DecidableEq K] (l : List α) (key : α → K) : K → Option (List α) :=
  fun k =>
    match l.filter (fun a => decide (key a = k)) with
    | [] => none
    | g => some g

/-- `calc_sum_amount` of `main.rs` (lines 264-266). -/
def calc_sum_amount (deposits : List Deposit) : ℚ :=
  deposits.foldl (fun acc e => acc + e.amount) 0

/-- `MIN_BENEFIT` of `main.rs` (line 19). -/
def MIN_BENEFIT : ℚ := 10

/-- `check_diversification` of `main.rs` (lines 247-262). -/
def check_diversification (bank : Bank) (amount_diff : ℚ)
    (total_amount_per_bank : String → Option ℚ) (total_amount : ℚ)
    (check_lower_bound check_upper_bound : Bool) : Bool :=
  let possible_bank_amount :=
    (match total_amount_per_bank bank.name with
      | some total_amount => total_amount
      | none => 0) + amount_diff
  let possible_bank_capacity := possible_bank_amount / total_amount
  (!check_lower_bound || decide (bank.min_capacity ≤ possible_bank_capacity)) &&
    (!check_upper_bound || decide (possible_bank_capacity ≤ bank.max_capacity))

/-- The `total_amount_per_bank` map of `print_suggestions` (lines 169-173):
per-bank sums of deposit amounts. -/
def totalPerBank (deposits : List Deposit) : String → Option ℚ :=
  fun k => (group_by deposits Deposit.bank k).map calc_sum_amount

/-- The candidate-search loop of `print_suggestions` (lines 193-211): walk the
rate-descending bank list, stop with no result at the current bank's name,
otherwise return the first bank accepting `+amount` within its upper bound. -/
def searchBank (self_name : String) (amount : ℚ) (totals : String → Option ℚ)
    (total : ℚ) : List Bank → Option Bank
  | [] => none
  | bank :: rest =>
    if bank.name = self_name then none
    else if check_diversification bank amount totals total false true then some bank
    else searchBank self_name amount totals total rest

/-- Candidate selection of `print_suggestions` (lines 183-212): the current
bank with zero commission unless the lower-bound check allows withdrawal and
the search finds a better bank, whose own transfer commission then applies. -/
def candidateFor (sorted : List Bank) (self : Bank) (amount : ℚ)
    (totals : String → Option ℚ) (total : ℚ) : Bank × ℚ :=
  if check_diversification self (-amount) totals total true false then
    match searchBank self.name amount totals total sorted with
    | some bank => (bank, bank.transfer_comission)
    | none => (self, 0)
  else (self, 0)

/-- One emitted suggestion (the data of the line pushed at `main.rs` lines
225-234). -/
structure Suggestion where
  depositName : String
  amount : ℚ
  fromBank : String
  toBank : String
  fromPercent : ℚ
  toPercent : ℚ
  benefit : ℚ
  comission : ℚ
deriving DecidableEq, Repr

/-- Builds the suggestion record for one deposit. -/
def mkSuggestion (d : Deposit) (best : Bank) (benefit comission : ℚ) : Suggestion :=
  ⟨d.name, d.amount, d.bank, best.name, d.percent, best.percent, benefit, comission⟩

/-- The per-deposit loop of `print_suggestions` (lines 178-236): resolve the
deposit's bank (a failed lookup is the fatal data-consistency error), pick the
candidate bank, and emit a suggestion when the net benefit reaches
`MIN_BENEFIT`. -/
def suggestGo (sorted : List Bank) (byName : String → Option Bank)
    (totals : String → Option ℚ) (total : ℚ) (now : NaiveDateTime) :
    List Deposit → Except String (List Suggestion)
  | [] => Except.ok []
  | deposit :: rest =>
    match byName deposit.bank with
    | none => Except.error ("Unknown bank in deposit " ++ deposit.name)
    | some self_bank =>
      let c := candidateFor sorted self_bank deposit.amount totals total
      let comission_amount := deposit.amount * c.2
      let possible_earn :=
        calc_earn deposit.amount c.1.percent now deposit.date_close c.1.pay_strategy
          - comission_amount
      let current_earn := calc_depo_earn deposit deposit.date_close
      let possible_benefit := possible_earn - current_earn
      match suggestGo sorted byName totals total now rest with
      | Except.error e => Except.error e
      | Except.ok rest' =>
        Except.ok (if MIN_BENEFIT ≤ possible_benefit
          then mkSuggestion deposit c.1 possible_benefit comission_amount :: rest'
          else rest')

/-- The banks list after the stable rate-descending sort (line 164). -/
def sortedBanks (banks : List Bank) : List Bank := order_by bankCmp banks

/-- `print_suggestions` of `main.rs` (lines 163-245), as the pure advisor
`suggestReallocations` of the specification: the emitted suggestion records
in input deposit order, or the fatal data-consistency error. -/
def suggestReallocations (deposits : List Deposit) (banks : List Bank)
    (now : NaiveDateTime) : Except String (List Suggestion) :=
  let sorted := sortedBanks banks
  let banks_by_name := index_by sorted Bank.name
  let total_amount := calc_sum_amount deposits
  let total_amount_per_bank := totalPerBank deposits
  suggestGo sorted banks_by_name total_amount_per_bank total_amount now deposits

def dApr : NaiveDateTime := ⟨3, 1, 0, by decide, by decide, by decide, by decide⟩

def dMay : NaiveDateTime := ⟨4, 1, 0, by decide, by decide, by decide, by decide⟩

def dJun : NaiveDateTime := ⟨5, 1, 0, by decide, by decide, by decide, by decide⟩

theorem check_div_eq_true_iff (bank : Bank) (amount_diff : ℚ)
    (totals : String → Option ℚ) (total : ℚ) (cl cu : Bool) :
    check_diversification bank amount_diff totals total cl cu = true ↔
      ((cl = true → bank.min_capacity ≤ ((totals bank.name).getD 0 + amount_diff) / total) ∧
       (cu = true → ((totals bank.name).getD 0 + amount_diff) / total ≤ bank.max_capacity)) := by
  unfold check_diversification
  cases htb : totals bank.name <;> cases cl <;> cases cu <;>
    simp [htb]

/-- C3: for every bank, amount delta, per-bank totals map, non-zero portfolio
total and pair of bound flags, `check_diversification` returns true iff (the
lower bound is not checked, or `min_capacity ≤ projectedShare`) and (the upper
bound is not checked, or `projectedShare ≤ max_capacity`), where
`projectedShare` is the defaulted per-bank total plus the delta, divided by
the portfolio total. -/
theorem claim_C3 (bank : Bank) (amount_diff : ℚ) (totals : String → Option ℚ)
    (total : ℚ) (cl cu : Bool) (h : total ≠ 0) :
    check_diversification bank amount_diff totals total cl cu = true ↔
      ((cl = true → bank.min_capacity ≤ ((totals bank.name).getD 0 + amount_diff) / total) ∧
       (cu = true → ((totals bank.name).getD 0 + amount_diff) / total ≤ bank.max_capacity)) :=
  check_div_eq_true_iff bank amount_diff totals total cl cu

theorem claim_C3_witness :
    ((100 : ℚ) ≠ 0) ∧
    (check_diversification ⟨"B", 0, 0, 1/2, 0, PayStrategy.Once⟩ 40 (fun _ => none) 100 true true = true ↔
      ((true = true → (0 : ℚ) ≤ ((((fun _ => none) : String → Option ℚ) "B").getD 0 + 40) / 100) ∧
       (true = true → ((((fun _ => none) : String → Option ℚ) "B").getD 0 + 40) / 100 ≤ 1/2))) :=
  ⟨by norm_num, claim_C3 ⟨"B", 0, 0, 1/2, 0, PayStrategy.Once⟩ 40 (fun _ => none) 100 true true (by norm_num)⟩

/-- C4: for every principal `p ≥ 0`, rate, strategy and date `d`, accrual over
the empty range `[d, d]` is zero and the loop executes exactly one iteration. -/
theorem claim_C4 (p r : ℚ) (strat : PayStrategy) (d : NaiveDateTime) (hp : 0 ≤ p) :
    calc_earn p r d d strat = 0 ∧ (calcEarnLoop (r / 365.25) strat d p d).2 = 1 := by
  have hstop : toSecs d < toSecs (addMonths d 1) := by
    have := toSecs_addMonths_one d; omega
  unfold calc_earn
  rw [calcEarnLoop_stop hstop]
  constructor
  · dsimp only
    rw [sub_self, numDays_zero]
    norm_num
  · rfl

theorem claim_C4_witness :
    (0 : ℚ) ≤ 1 ∧ calc_earn 1 (1/10) dApr dApr PayStrategy.Once = 0 ∧
      (calcEarnLoop ((1/10) / 365.25) PayStrategy.Once dApr 1 dApr).2 = 1 :=
  ⟨by norm_num, (claim_C4 1 (1/10) PayStrategy.Once dApr (by norm_num)).1,
    (claim_C4 1 (1/10) PayStrategy.Once dApr (by norm_num)).2⟩

/-- C6 counterexample: with a positive portfolio total, increasing the
proposed delta does not preserve a passing upper-bound check: the bank "B"
with `max_capacity = 1/2` accepts `+40` of a 100 portfolio but not `+60`. -/
theorem claim_C6_counterexample :
    ((40 : ℚ) < 60) ∧
    check_diversification ⟨"B", 0, 0, 1/2, 0, PayStrategy.Once⟩ 40 (fun _ => none) 100 false true = true ∧
    check_diversification ⟨"B", 0, 0, 1/2, 0, PayStrategy.Once⟩ 60 (fun _ => none) 100 false true = false := by
  refine ⟨by norm_num, ?_, ?_⟩ <;> simp [check_diversification] <;> norm_num

/-- C6 (amended): `check_diversification` is monotonic in the proposed amount
delta, with a positive portfolio total: increasing the delta can only help
pass the lower-bound check and can only help fail the upper-bound check (the
claim stated the two directions the other way round). -/
theorem claim_C6 (bank : Bank) (totals : String → Option ℚ) (total : ℚ)
    (a a' : ℚ) (ht : 0 < total) (ha : a ≤ a') :
    (check_diversification bank a totals total true false = true →
      check_diversification bank a' totals total true false = true) ∧
    (check_diversification bank a' totals total false true = true →
      check_diversification bank a totals total false true = true) := by
  have key : ((totals bank.name).getD 0 + a) / total ≤ ((totals bank.name).getD 0 + a') / total :=
    (div_le_div_iff_of_pos_right ht).mpr (by linarith)
  constructor
  · intro hgoal
    rw [check_div_eq_true_iff] at hgoal ⊢
    exact ⟨fun _ => le_trans (hgoal.1 rfl) key, by simp⟩
  · intro hgoal
    rw [check_div_eq_true_iff] at hgoal ⊢
    exact ⟨by simp, fun _ => le_trans key (hgoal.2 rfl)⟩

theorem claim_C6_witness :
    ((0 : ℚ) < 100) ∧ ((40 : ℚ) ≤ 60) ∧
    ((check_diversification ⟨"B", 0, 0, 1/2, 0, PayStrategy.Once⟩ 40 (fun _ => none) 100 true false = true →
       check_diversification ⟨"B", 0, 0, 1/2, 0, PayStrategy.Once⟩ 60 (fun _ => none) 100 true false = true) ∧
     (check_diversification ⟨"B", 0, 0, 1/2, 0, PayStrategy.Once⟩ 60 (fun _ => none) 100 false true = true →
       check_diversification ⟨"B", 0, 0, 1/2, 0, PayStrategy.Once⟩ 40 (fun _ => none) 100 false true = true)) :=
  ⟨by norm_num, by norm_num,
    claim_C6 ⟨"B", 0, 0, 1/2, 0, PayStrategy.Once⟩ (fun _ => none) 100 40 60 (by norm_num) (by norm_num)⟩

/-- C7 counterexample: at principal `p = 0` (allowed by the claim's `p ≥ 0`),
positive rate and a range of more than one calendar month, capitalised
accrual equals the `Once` accrual (both are zero), so the claimed strict
inequality fails. -/
theorem claim_C7_counterexample :
    (0 : ℚ) ≤ 0 ∧ (0 : ℚ) < 1/20 ∧ toSecs (addMonths dApr 1) < toSecs dJun ∧
    ¬ calc_earn 0 (1/20) dApr dJun PayStrategy.Once <
        calc_earn 0 (1/20) dApr dJun PayStrategy.Capitalization := by
  have h1 : ¬ toSecs dJun < toSecs (addMonths dApr 1) := by decide
  have h2 : ¬ toSecs dJun < toSecs (addMonths (addMonths dApr 1) 1) := by decide
  have h3 : toSecs dJun < toSecs (addMonths (addMonths (addMonths dApr 1) 1) 1) := by decide
  refine ⟨le_refl 0, by norm_num, by decide, ?_⟩
  simp only [calc_earn, calcEarnLoop_step h1, calcEarnLoop_step h2, calcEarnLoop_stop h3]
  norm_num

/-- C7 (amended): for `p ≥ 0`, `r > 0` and a range of more than one calendar
month, capitalised accrual is at least the `Once` accrual, and strictly
greater under the two extra conditions the counterexample forces: a strictly
positive principal, and an end date at least one whole day past the end of
the first monthly period (otherwise every later period spans zero whole days
and contributes nothing). -/
theorem claim_C7 (p r : ℚ) (s e : NaiveDateTime) (hp : 0 ≤ p) (hr : 0 < r)
    (hspan : toSecs (addMonths s 1) < toSecs e) :
    calc_earn p r s e PayStrategy.Once ≤ calc_earn p r s e PayStrategy.Capitalization ∧
    (0 < p → toSecs (addMonths s 1) + 86400 ≤ toSecs e →
      calc_earn p r s e PayStrategy.Once < calc_earn p r s e PayStrategy.Capitalization) := by
  have hrpd : (0 : ℚ) < r / 365.25 := by positivity
  have hmon := toSecs_addMonths_one s
  have hstop : ¬ toSecs e < toSecs (addMonths s 1) := by omega
  have hd1 : (1 : ℚ) ≤ ((numDays (toSecs (addMonths s 1) - toSecs s) : Int) : ℚ) := by
    exact_mod_cast numDays_pos (by omega)
  unfold calc_earn
  rw [calcEarnLoop_step hstop, calcEarnLoop_step hstop]
  dsimp only
  rw [if_neg (by decide : ¬ PayStrategy.Once = PayStrategy.Capitalization), if_pos rfl]
  have hearn : (0 : ℚ) ≤ p * ((numDays (toSecs (addMonths s 1) - toSecs s) : Int) : ℚ) * (r / 365.25) := by
    have h0 : (0 : ℚ) ≤ ((numDays (toSecs (addMonths s 1) - toSecs s) : Int) : ℚ) := by linarith
    positivity
  constructor
  · refine add_le_add (le_refl _) ?_
    exact calcEarnLoop_le (le_of_lt hrpd) e (toSecs e - toSecs (addMonths s 1)).toNat
      (addMonths s 1) p _ (le_refl _) hp (by linarith) (by omega)
  · intro hp2 hday
    refine add_lt_add_of_le_of_lt (le_refl _) ?_
    refine calcEarnLoop_lt hrpd hp ?_ hday
    have : (0 : ℚ) < p * ((numDays (toSecs (addMonths s 1) - toSecs s) : Int) : ℚ) * (r / 365.25) :=
      mul_pos (mul_pos hp2 (lt_of_lt_of_le zero_lt_one hd1)) hrpd
    linarith

theorem claim_C7_witness :
    calc_earn 100000 (1/20) dApr dJun PayStrategy.Once ≤
      calc_earn 100000 (1/20) dApr dJun PayStrategy.Capitalization ∧
    calc_earn 100000 (1/20) dApr dJun PayStrategy.Once <
      calc_earn 100000 (1/20) dApr dJun PayStrategy.Capitalization :=
  ⟨(claim_C7 100000 (1/20) dApr dJun (by norm_num) (by norm_num) (by decide)).1,
   (claim_C7 100000 (1/20) dApr dJun (by norm_num) (by norm_num) (by decide)).2
     (by norm_num) (by decide)⟩

theorem searchBank_eq_find (amount : ℚ) (totals : String → Option ℚ) (total : ℚ) :
    ∀ (sorted : List Bank) (i : Nat) (hi : i < sorted.length) (self : Bank),
      (sorted.map Bank.name).Nodup → sorted.get ⟨i, hi⟩ = self →
      searchBank self.name amount totals total sorted =
        (sorted.take i).find? (fun b => check_diversification b amount totals total false true) := by
  intro sorted
  induction sorted with
  | nil => intro i hi; exact absurd hi (by simp)
  | cons b t ih =>
    intro i hi self hnd hself
    cases i with
    | zero =>
      have hb : b = self := hself
      subst hb
      unfold searchBank
      rw [if_pos rfl]
      rfl
    | succ i' =>
      have hmem : self ∈ t := by
        have hg : t.get ⟨i', by simpa using hi⟩ = self := hself
        rw [← hg]; exact t.get_mem _ _
      have hne : ¬ b.name = self.name := by
        simp only [List.map_cons, List.nodup_cons] at hnd
        intro hcontra
        exact hnd.1 (hcontra ▸ List.mem_map_of_mem Bank.name hmem)
      unfold searchBank
      rw [if_neg hne]
      rw [List.take_succ_cons]
      by_cases hchk : check_diversification b amount totals total false true = true
      · rw [if_pos hchk]
        have hfind : List.find? (fun bk => check_diversification bk amount totals total false true)
            (b :: List.take i' t) = some b := by
          simp [List.find?, hchk]
        rw [hfind]
      · have hchk2 : check_diversification b amount totals total false true = false := by
          simpa using hchk
        rw [if_neg hchk]
        have hfind : List.find? (fun bk => check_diversification bk amount totals total false true)
            (b :: List.take i' t) =
            List.find? (fun bk => check_diversification bk amount totals total false true)
              (List.take i' t) := by
          simp [List.find?, hchk2]
        rw [hfind]
        exact ih i' (by simpa using hi) self
          (by simp only [List.map_cons, List.nodup_cons] at hnd; exact hnd.2) hself

/-- C1: for every deposit amount, per-bank totals and portfolio total, with
pairwise-distinct bank names and the current bank at position `i` of the
rate-descending list: if withdrawing the amount passes the lower-bound check,
the candidate is the first bank strictly before position `i` whose upper-bound
check accepts the amount (with that bank's transfer commission), or the
current bank with zero commission if there is none; if the lower-bound check
fails, no search occurs and the candidate is the current bank with zero
commission. -/
theorem claim_C1 (sorted : List Bank) (i : Nat) (hi : i < sorted.length)
    (self : Bank) (amount : ℚ) (totals : String → Option ℚ) (total : ℚ)
    (hnd : (sorted.map Bank.name).Nodup) (hself : sorted.get ⟨i, hi⟩ = self) :
    (check_diversification self (-amount) totals total true false = true →
      candidateFor sorted self amount totals total =
        match (sorted.take i).find? (fun b => check_diversification b amount totals total false true) with
        | some bank => (bank, bank.transfer_comission)
        | none => (self, 0)) ∧
    (check_diversification self (-amount) totals total true false = false →
      candidateFor sorted self amount totals total = (self, 0)) := by
  constructor
  · intro hlow
    unfold candidateFor
    rw [if_pos hlow, searchBank_eq_find amount totals total sorted i hi self hnd hself]
  · intro hlow
    unfold candidateFor
    rw [if_neg (by simp [hlow])]

theorem claim_C1_witness :
    candidateFor [⟨"B", 2/10, 0, 1, 3/100, PayStrategy.Once⟩, ⟨"A", 1/10, 0, 1, 0, PayStrategy.Once⟩]
        ⟨"A", 1/10, 0, 1, 0, PayStrategy.Once⟩ 50 (fun _ => some 100) 200 =
      (⟨"B", 2/10, 0, 1, 3/100, PayStrategy.Once⟩, 3/100) := by
  have hlow : check_diversification ⟨"A", 1/10, 0, 1, 0, PayStrategy.Once⟩ (-50)
      (fun _ => some 100) 200 true false = true := by
    simp only [check_diversification]
    norm_num
  have h := (claim_C1
    [⟨"B", 2/10, 0, 1, 3/100, PayStrategy.Once⟩, ⟨"A", 1/10, 0, 1, 0, PayStrategy.Once⟩]
    1 (by norm_num) ⟨"A", 1/10, 0, 1, 0, PayStrategy.Once⟩ 50 (fun _ => some 100) 200
    (by decide) rfl).1 hlow
  rw [h]
  have hchk : check_diversification ⟨"B", 2/10, 0, 1, 3/100, PayStrategy.Once⟩ 50
      (fun _ => some 100) 200 false true = true := by
    simp only [check_diversification]
    norm_num
  have hfind : List.find?
      (fun b => check_diversification b 50 (fun _ => some 100) 200 false true)
      (List.take 1 [⟨"B", 2/10, 0, 1, 3/100, PayStrategy.Once⟩, ⟨"A", 1/10, 0, 1, 0, PayStrategy.Once⟩]) =
      some ⟨"B", 2/10, 0, 1, 3/100, PayStrategy.Once⟩ := by
    simp [List.find?, hchk]
  rw [hfind]

theorem getLast?_cons_or {α : Type} (a : α) (l : List α) :
    (a :: l).getLast? = l.getLast?.or (some a) := by
  induction l generalizing a with
  | nil => rfl
  | cons b t ih =>
    rw [List.getLast?_cons_cons, ih b, Option.or_assoc]
    rfl

theorem index_by_aux {α K : Type} [DecidableEq K] (key : α → K) (k : K) :
    ∀ (l : List α) (m0 : K → Option α),
      (l.foldl (fun m item => Function.update m (key item) (some item)) m0) k =
        ((l.filter (fun a => decide (key a = k))).getLast?).or (m0 k) := by
  intro l
  induction l with
  | nil => intro m0; simp
  | cons a t ih =>
    intro m0
    rw [List.foldl_cons, ih, List.filter_cons]
    by_cases hk : key a = k
    · rw [if_pos (by simpa using hk), getLast?_cons_or, Option.or_assoc]
      have hupd : Function.update m0 (key a) (some a) k = some a := by
        rw [Function.update_apply, if_pos hk.symm]
      rw [hupd]
      rfl
    · rw [if_neg (by simpa using hk)]
      have hupd : Function.update m0 (key a) (some a) k = m0 k := by
        rw [Function.update_apply, if_neg (fun hc => hk hc.symm)]
      rw [hupd]

theorem index_by_lookup {α K : Type} [DecidableEq K] (l : List α) (key : α → K) (k : K) :
    index_by l key k = (l.filter (fun a => decide (key a = k))).getLast? := by
  unfold index_by
  rw [index_by_aux]
  exact Option.or_none

/-- C9: `index_by` maps every key to the last input item having that key
(later items silently overwrite earlier ones), and for an injective key
function every item is reachable from its own key. -/
theorem claim_C9 {α K : Type} [DecidableEq K] (l : List α) (key : α → K) :
    (∀ k : K, index_by l key k = (l.filter (fun a => decide (key a = k))).getLast?) ∧
    ((∀ a ∈ l, ∀ b ∈ l, key a = key b → a = b) →
      ∀ a ∈ l, index_by l key (key a) = some a) := by
  constructor
  · exact index_by_lookup l key
  · intro hinj a ha
    rw [index_by_lookup]
    have hmem : a ∈ l.filter (fun b => decide (key b = key a)) :=
      List.mem_filter.mpr ⟨ha, by simp⟩
    have hne : l.filter (fun b => decide (key b = key a)) ≠ [] := by
      intro hcon; rw [hcon] at hmem; exact absurd hmem (List.not_mem_nil a)
    rw [List.getLast?_eq_getLast _ hne]
    have hlmem := List.getLast_mem hne
    have := List.mem_filter.mp hlmem
    exact congrArg some (hinj _ this.1 a ha (by simpa using this.2))

theorem claim_C9_witness :
    (index_by [(1, 10), (1, 20), (2, 30)] Prod.fst 1 =
      (([(1, 10), (1, 20), (2, 30)] : List (Nat × Nat)).filter
        (fun a => decide (a.fst = 1))).getLast?) ∧
    index_by [(5, 10), (6, 20)] Prod.fst ((5, 10) : Nat × Nat).fst = some (5, 10) :=
  ⟨(claim_C9 [(1, 10), (1, 20), (2, 30)] Prod.fst).1 1,
   (claim_C9 [(5, 10), (6, 20)] Prod.fst).2 (by decide) (5, 10) (by decide)⟩

theorem index_by_eq_none {α K : Type} [DecidableEq K] (l : List α) (key : α → K)
    (k : K) (h : ∀ a ∈ l, key a ≠ k) : index_by l key k = none := by
  rw [index_by_lookup]
  have hfil : l.filter (fun a => decide (key a = k)) = [] := by
    rw [List.filter_eq_nil_iff]
    intro a ha
    simpa using h a ha
  rw [hfil]
  rfl

theorem suggestGo_error (sorted : List Bank) (byName : String → Option Bank)
    (totals : String → Option ℚ) (total : ℚ) (now : NaiveDateTime) :
    ∀ deps : List Deposit, (∃ d ∈ deps, byName d.bank = none) →
      ∃ msg, suggestGo sorted byName totals total now deps = Except.error msg := by
  intro deps
  induction deps with
  | nil => rintro ⟨d, hd, hnone⟩; cases hd
  | cons d0 rest ih =>
    rintro ⟨d, hd, hnone⟩
    cases hb : byName d0.bank with
    | none => exact ⟨"Unknown bank in deposit " ++ d0.name, by simp [suggestGo, hb]⟩
    | some self =>
      have hd2 : d ∈ rest := by
        cases List.mem_cons.mp hd with
        | inl h => subst h; rw [hnone] at hb; cases hb
        | inr h => exact h
      obtain ⟨msg, hmsg⟩ := ih ⟨d, hd2, hnone⟩
      refine ⟨msg, ?_⟩
      simp only [suggestGo, hb, hmsg]

/-- C5: if some deposit references a bank name carried by no known bank, the
advisor fails with the fatal data-consistency error and produces no result
list at all (the deposit is not silently skipped). -/
theorem claim_C5 (deposits : List Deposit) (banks : List Bank)
    (now : NaiveDateTime) (d : Deposit) (hd : d ∈ deposits)
    (hmiss : ∀ b ∈ banks, b.name ≠ d.bank) :
    ∃ msg, suggestReallocations deposits banks now = Except.error msg := by
  unfold suggestReallocations
  apply suggestGo_error
  refine ⟨d, hd, ?_⟩
  apply index_by_eq_none
  intro b hb
  exact hmiss b ((List.perm_insertionSort (leOfCmp bankCmp) banks).mem_iff.mp hb)

def cdep : Deposit :=
  ⟨"A", "d1", dApr, dMay, 100000, 0, DepositStatus.Active, PayStrategy.Once⟩

theorem claim_C5_witness :
    cdep ∈ [cdep] ∧ (∀ b ∈ ([] : List Bank), b.name ≠ cdep.bank) ∧
    ∃ msg, suggestReallocations [cdep] [] dJun = Except.error msg :=
  ⟨by simp, by simp,
    claim_C5 [cdep] [] dJun cdep (by simp) (by simp)⟩

theorem bankLe_iff (a b : Bank) : leOfCmp bankCmp a b ↔ b.percent ≤ a.percent := by
  unfold leOfCmp bankCmp cmpRat
  rcases lt_trichotomy b.percent a.percent with h | h | h
  · rw [if_pos h]
    simp [le_of_lt h]
  · rw [if_neg (by rw [h]; exact lt_irrefl _), if_pos h]
    simp [le_of_eq h]
  · rw [if_neg (not_lt.mpr (le_of_lt h)), if_neg (ne_of_gt h)]
    simp [not_le.mpr h]

instance : IsTotal Bank (leOfCmp bankCmp) :=
  ⟨fun a b => by rw [bankLe_iff, bankLe_iff]; exact le_total _ _⟩

instance : IsTrans Bank (leOfCmp bankCmp) :=
  ⟨fun a b c hab hbc => by
    rw [bankLe_iff] at hab hbc ⊢
    exact le_trans hbc hab⟩

theorem filter_orderedInsert (q : ℚ) (a : Bank) :
    ∀ l : List Bank,
      (List.orderedInsert (leOfCmp bankCmp) a l).filter (fun b => decide (b.percent = q)) =
        if a.percent = q then a :: l.filter (fun b => decide (b.percent = q))
        else l.filter (fun b => decide (b.percent = q)) := by
  intro l
  induction l with
  | nil =>
    simp only [List.orderedInsert, List.filter_cons, List.filter_nil]
    by_cases hq : a.percent = q
    · rw [if_pos (by simpa using hq), if_pos hq]
    · rw [if_neg (by simpa using hq), if_neg hq]
  | cons b t ih =>
    by_cases hr : leOfCmp bankCmp a b
    · by_cases hqa : a.percent = q <;> by_cases hqb : b.percent = q <;>
        simp [List.orderedInsert, hr, List.filter_cons, hqa, hqb]
    · have hba : a.percent < b.percent := by
        rw [bankLe_iff] at hr; exact not_le.mp hr
      by_cases hqa : a.percent = q
      · have hqb : ¬ b.percent = q := by rw [← hqa]; exact ne_of_gt hba
        simp [List.orderedInsert, hr, List.filter_cons, hqa, hqb, ih]
      · by_cases hqb : b.percent = q <;>
          simp [List.orderedInsert, hr, List.filter_cons, hqa, hqb, ih]

theorem filter_sortedBanks (q : ℚ) (banks : List Bank) :
    (sortedBanks banks).filter (fun b => decide (b.percent = q)) =
      banks.filter (fun b => decide (b.percent = q)) := by
  unfold sortedBanks order_by
  induction banks with
  | nil => rfl
  | cons a t ih =>
    simp only [List.insertionSort]
    rw [filter_orderedInsert, ih]
    by_cases hqa : a.percent = q <;> simp [List.filter_cons, hqa]

theorem sorted_eq_of_filters :
    ∀ l1 l2 : List Bank, l1.Sorted (leOfCmp bankCmp) → l2.Sorted (leOfCmp bankCmp) →
      (∀ q : ℚ, l1.filter (fun b => decide (b.percent = q)) =
        l2.filter (fun b => decide (b.percent = q))) →
      l1 = l2 := by
  intro l1
  induction l1 with
  | nil =>
    intro l2 hs1 hs2 hf
    cases l2 with
    | nil => rfl
    | cons b t2 =>
      exfalso
      have h := hf b.percent
      rw [List.filter_nil, List.filter_cons, if_pos (by simp)] at h
      cases h
  | cons a t1 ih =>
    intro l2 hs1 hs2 hf
    cases l2 with
    | nil =>
      exfalso
      have h := hf a.percent
      rw [List.filter_cons, if_pos (by simp), List.filter_nil] at h
      cases h
    | cons b t2 =>
      have hpq : a.percent = b.percent := by
        by_contra hne
        have ha2 : a ∈ b :: t2 := by
          have h := hf a.percent
          have hmem : a ∈ (b :: t2).filter (fun bk => decide (bk.percent = a.percent)) := by
            rw [← h]
            exact List.mem_filter.mpr ⟨List.mem_cons_self a t1, by simp⟩
          exact (List.mem_filter.mp hmem).1
        have hb1 : b ∈ a :: t1 := by
          have h := hf b.percent
          have hmem : b ∈ (a :: t1).filter (fun bk => decide (bk.percent = b.percent)) := by
            rw [h]
            exact List.mem_filter.mpr ⟨List.mem_cons_self b t2, by simp⟩
          exact (List.mem_filter.mp hmem).1
        have hle1 : a.percent ≤ b.percent := by
          cases List.mem_cons.mp ha2 with
          | inl heq => rw [heq]
          | inr hmem =>
            have hx := (List.sorted_cons.mp hs2).1 a hmem
            rw [bankLe_iff] at hx
            exact hx
        have hle2 : b.percent ≤ a.percent := by
          cases List.mem_cons.mp hb1 with
          | inl heq => rw [heq]
          | inr hmem =>
            have hx := (List.sorted_cons.mp hs1).1 b hmem
            rw [bankLe_iff] at hx
            exact hx
        exact hne (le_antisymm hle1 hle2)
      have hq := hf a.percent
      rw [List.filter_cons, List.filter_cons, if_pos (by simp),
        if_pos (by simp [hpq.symm])] at hq
      have hab : a = b := (List.cons_eq_cons.mp hq).1
      have htq : t1.filter (fun bk => decide (bk.percent = a.percent)) =
          t2.filter (fun bk => decide (bk.percent = a.percent)) :=
        (List.cons_eq_cons.mp hq).2
      subst hab
      congr 1
      refine ih t2 (List.sorted_cons.mp hs1).2 (List.sorted_cons.mp hs2).2 ?_
      intro q
      by_cases hqa : q = a.percent
      · rw [hqa]; exact htq
      · have h := hf q
        rw [List.filter_cons, List.filter_cons,
          if_neg (by simp; exact fun hc => hqa hc.symm),
          if_neg (by simp; exact fun hc => hqa hc.symm)] at h
        exact h

theorem sortedBanks_eq_of_filters (banks1 banks2 : List Bank)
    (hf : ∀ q : ℚ, banks1.filter (fun b => decide (b.percent = q)) =
      banks2.filter (fun b => decide (b.percent = q))) :
    sortedBanks banks1 = sortedBanks banks2 := by
  refine sorted_eq_of_filters (sortedBanks banks1) (sortedBanks banks2) ?_ ?_ ?_
  · exact List.sorted_insertionSort (leOfCmp bankCmp) banks1
  · exact List.sorted_insertionSort (leOfCmp bankCmp) banks2
  · intro q
    rw [filter_sortedBanks, filter_sortedBanks]
    exact hf q

/-- C8: the advisor is deterministic (re-running on the same inputs and the
same `now` yields the same output), and its output is identical for any input
ordering of the banks that preserves the stable sort's tie-break order, i.e.
for inputs carrying the same banks in the same relative order within every
rate class. -/
theorem claim_C8 (deposits : List Deposit) (banks1 banks2 : List Bank)
    (now : NaiveDateTime)
    (hf : ∀ q : ℚ, banks1.filter (fun b => decide (b.percent = q)) =
      banks2.filter (fun b => decide (b.percent = q))) :
    suggestReallocations deposits banks1 now = suggestReallocations deposits banks1 now ∧
    suggestReallocations deposits banks1 now = suggestReallocations deposits banks2 now := by
  refine ⟨rfl, ?_⟩
  unfold suggestReallocations
  rw [sortedBanks_eq_of_filters banks1 banks2 hf]

theorem claim_C8_witness :
    (suggestReallocations [] [⟨"A", 1, 0, 1, 0, PayStrategy.Once⟩, ⟨"B", 2, 0, 1, 0, PayStrategy.Once⟩] dJun =
      suggestReallocations [] [⟨"A", 1, 0, 1, 0, PayStrategy.Once⟩, ⟨"B", 2, 0, 1, 0, PayStrategy.Once⟩] dJun) ∧
    suggestReallocations [] [⟨"A", 1, 0, 1, 0, PayStrategy.Once⟩, ⟨"B", 2, 0, 1, 0, PayStrategy.Once⟩] dJun =
      suggestReallocations [] [⟨"B", 2, 0, 1, 0, PayStrategy.Once⟩, ⟨"A", 1, 0, 1, 0, PayStrategy.Once⟩] dJun :=
  claim_C8 [] [⟨"A", 1, 0, 1, 0, PayStrategy.Once⟩, ⟨"B", 2, 0, 1, 0, PayStrategy.Once⟩]
    [⟨"B", 2, 0, 1, 0, PayStrategy.Once⟩, ⟨"A", 1, 0, 1, 0, PayStrategy.Once⟩] dJun
    (by
      intro q
      by_cases h1 : (1 : ℚ) = q <;> by_cases h2 : (2 : ℚ) = q
      · exfalso; rw [← h1] at h2; norm_num at h2
      all_goals simp [List.filter_cons, h1, h2])

/-- The net benefit the advisor computes for deposit `d` with resolved current
bank `self_bank`: projected earning at the candidate bank minus the applied
commission amount, minus the earning over the deposit's own full original
schedule. -/
def advisorNetBenefit (sorted : List Bank) (totals : String → Option ℚ) (total : ℚ)
    (now : NaiveDateTime) (d : Deposit) (self_bank : Bank) : ℚ :=
  calc_earn d.amount (candidateFor sorted self_bank d.amount totals total).1.percent now
      d.date_close (candidateFor sorted self_bank d.amount totals total).1.pay_strategy
    - d.amount * (candidateFor sorted self_bank d.amount totals total).2
    - calc_earn d.amount d.percent d.date_open d.date_close d.pay_strategy

theorem suggestGo_ok (sorted : List Bank) (byName : String → Option Bank)
    (totals : String → Option ℚ) (total : ℚ) (now : NaiveDateTime) :
    ∀ (deps : List Deposit) (out : List Suggestion),
      suggestGo sorted byName totals total now deps = Except.ok out →
      out = deps.filterMap (fun d =>
        match byName d.bank with
        | none => none
        | some self_bank =>
          if MIN_BENEFIT ≤ advisorNetBenefit sorted totals total now d self_bank
          then some (mkSuggestion d (candidateFor sorted self_bank d.amount totals total).1
              (advisorNetBenefit sorted totals total now d self_bank)
              (d.amount * (candidateFor sorted self_bank d.amount totals total).2))
          else none) := by
  intro deps
  induction deps with
  | nil =>
    intro out h
    simp only [suggestGo] at h
    cases h
    rfl
  | cons d rest ih =>
    intro out h
    simp only [suggestGo] at h
    cases hb : byName d.bank with
    | none => rw [hb] at h; cases h
    | some self_bank =>
      rw [hb] at h
      cases hr : suggestGo sorted byName totals total now rest with
      | error e => rw [hr] at h; cases h
      | ok rest2 =>
        rw [hr] at h
        cases h
        simp only [List.filterMap_cons, hb]
        rw [← ih rest2 hr]
        have hAdv : advisorNetBenefit sorted totals total now d self_bank =
            calc_earn d.amount (candidateFor sorted self_bank d.amount totals total).1.percent now
                d.date_close (candidateFor sorted self_bank d.amount totals total).1.pay_strategy
              - d.amount * (candidateFor sorted self_bank d.amount totals total).2
              - calc_depo_earn d d.date_close := rfl
        rw [← hAdv]
        by_cases hc : MIN_BENEFIT ≤ advisorNetBenefit sorted totals total now d self_bank
        · simp only [if_pos hc]
        · simp only [if_neg hc]

theorem searchBank_ne (self_name : String) (amount : ℚ) (totals : String → Option ℚ)
    (total : ℚ) :
    ∀ (l : List Bank) (b : Bank),
      searchBank self_name amount totals total l = some b → ¬ b.name = self_name := by
  intro l
  induction l with
  | nil => intro b h; cases h
  | cons bk rest ih =>
    intro b h
    unfold searchBank at h
    by_cases h1 : bk.name = self_name
    · rw [if_pos h1] at h; cases h
    · rw [if_neg h1] at h
      by_cases h2 : check_diversification bk amount totals total false true = true
      · rw [if_pos h2] at h
        cases h
        exact h1
      · rw [if_neg h2] at h
        exact ih b h

theorem candidateFor_comm (sorted : List Bank) (self : Bank) (amount : ℚ)
    (totals : String → Option ℚ) (total : ℚ) :
    (candidateFor sorted self amount totals total).2 =
      if (candidateFor sorted self amount totals total).1.name = self.name then 0
      else (candidateFor sorted self amount totals total).1.transfer_comission := by
  unfold candidateFor
  by_cases hlow : check_diversification self (-amount) totals total true false = true
  · rw [if_pos hlow]
    cases hs : searchBank self.name amount totals total sorted with
    | none => rw [if_pos rfl]
    | some b =>
      rw [if_neg (searchBank_ne self.name amount totals total sorted b hs)]
  · rw [if_neg hlow, if_pos rfl]

def cbankA : Bank := ⟨"A", 0.36525, 0, 1, 1, PayStrategy.Once⟩

/-- C2 (amended): for a successful run, a suggestion is emitted for a deposit
iff the net benefit — the projected earning at the candidate bank minus the
applied commission cost minus the earning over the deposit's own full
original schedule — reaches `MIN_BENEFIT`, in deposit order; the applied
commission rate is the candidate bank's transfer commission when the
candidate differs from the deposit's current bank, and zero when the
candidate is the current bank (the claim charged
`candidateBank.transferCommission` unconditionally, which the code does not
do for a self-candidate). -/
theorem claim_C2 (deposits : List Deposit) (banks : List Bank) (now : NaiveDateTime)
    (out : List Suggestion)
    (h : suggestReallocations deposits banks now = Except.ok out) :
    (out = deposits.filterMap (fun d =>
      match index_by (sortedBanks banks) Bank.name d.bank with
      | none => none
      | some self_bank =>
        if MIN_BENEFIT ≤ advisorNetBenefit (sortedBanks banks) (totalPerBank deposits)
            (calc_sum_amount deposits) now d self_bank
        then some (mkSuggestion d
            (candidateFor (sortedBanks banks) self_bank d.amount (totalPerBank deposits)
              (calc_sum_amount deposits)).1
            (advisorNetBenefit (sortedBanks banks) (totalPerBank deposits)
              (calc_sum_amount deposits) now d self_bank)
            (d.amount * (candidateFor (sortedBanks banks) self_bank d.amount
              (totalPerBank deposits) (calc_sum_amount deposits)).2))
        else none)) ∧
    (∀ (self : Bank) (amount : ℚ) (totals : String → Option ℚ) (total : ℚ),
      (candidateFor (sortedBanks banks) self amount totals total).2 =
        if (candidateFor (sortedBanks banks) self amount totals total).1.name = self.name then 0
        else (candidateFor (sortedBanks banks) self amount totals total).1.transfer_comission) := by
  constructor
  · exact suggestGo_ok (sortedBanks banks) (index_by (sortedBanks banks) Bank.name)
      (totalPerBank deposits) (calc_sum_amount deposits) now deposits out h
  · intro self amount totals total
    exact candidateFor_comm (sortedBanks banks) self amount totals total

theorem claim_C2_witness :
    (([] : List Suggestion) = ([] : List Deposit).filterMap (fun d =>
      match index_by (sortedBanks [cbankA]) Bank.name d.bank with
      | none => none
      | some self_bank =>
        if MIN_BENEFIT ≤ advisorNetBenefit (sortedBanks [cbankA]) (totalPerBank [])
            (calc_sum_amount []) dApr d self_bank
        then some (mkSuggestion d
            (candidateFor (sortedBanks [cbankA]) self_bank d.amount (totalPerBank [])
              (calc_sum_amount [])).1
            (advisorNetBenefit (sortedBanks [cbankA]) (totalPerBank [])
              (calc_sum_amount []) dApr d self_bank)
            (d.amount * (candidateFor (sortedBanks [cbankA]) self_bank d.amount
              (totalPerBank []) (calc_sum_amount [])).2))
        else none)) ∧
    (∀ (self : Bank) (amount : ℚ) (totals : String → Option ℚ) (total : ℚ),
      (candidateFor (sortedBanks [cbankA]) self amount totals total).2 =
        if (candidateFor (sortedBanks [cbankA]) self amount totals total).1.name = self.name then 0
        else (candidateFor (sortedBanks [cbankA]) self amount totals total).1.transfer_comission) :=
  claim_C2 [] [cbankA] dApr [] rfl

def csugg : Suggestion := ⟨"d1", 100000, "A", "A", 0, 0.36525, 3000, 0⟩

theorem cearn_candidate : calc_earn 100000 (0.36525 : ℚ) dApr dMay PayStrategy.Once = 3000 := by
  unfold calc_earn
  rw [calcEarnLoop_step (by decide), calcEarnLoop_stop (by decide)]
  rw [show numDays (toSecs (addMonths dApr 1) - toSecs dApr) = 30 from by decide]
  rw [show numDays (toSecs dMay - toSecs (addMonths dApr 1)) = 0 from by decide]
  norm_num

theorem cearn_current : calc_earn 100000 (0 : ℚ) dApr dMay PayStrategy.Once = 0 := by
  unfold calc_earn
  rw [calcEarnLoop_step (by decide), calcEarnLoop_stop (by decide)]
  norm_num

theorem csum_eval : calc_sum_amount [cdep] = 100000 := by
  simp [calc_sum_amount, cdep]

theorem ctotals_eval : totalPerBank [cdep] "A" = some 100000 := by
  simp only [totalPerBank, group_by, cdep]
  norm_num [calc_sum_amount]

theorem clow_eval : check_diversification cbankA (-(100000 : ℚ)) (totalPerBank [cdep])
    (calc_sum_amount [cdep]) true false = true := by
  simp only [check_diversification]
  norm_num [cbankA, ctotals_eval, csum_eval]

theorem csearch_eval : searchBank cbankA.name 100000 (totalPerBank [cdep])
    (calc_sum_amount [cdep]) [cbankA] = none := by
  unfold searchBank
  rw [if_pos rfl]

theorem ccand_eval : candidateFor [cbankA] cbankA 100000 (totalPerBank [cdep])
    (calc_sum_amount [cdep]) = (cbankA, 0) := by
  unfold candidateFor
  rw [if_pos clow_eval, csearch_eval]

theorem cbyname_eval : index_by [cbankA] Bank.name "A" = some cbankA := by
  rw [index_by_lookup]
  simp [cbankA]

theorem cpipe_eval : suggestReallocations [cdep] [cbankA] dApr = Except.ok [csugg] := by
  show suggestGo [cbankA] (index_by [cbankA] Bank.name) (totalPerBank [cdep])
      (calc_sum_amount [cdep]) dApr [cdep] = Except.ok [csugg]
  simp only [suggestGo, show (cdep.bank) = "A" from rfl, cbyname_eval,
    show (cdep.amount : ℚ) = 100000 from rfl, ccand_eval,
    show cdep.date_close = dMay from rfl, calc_depo_earn,
    show cbankA.percent = (0.36525 : ℚ) from rfl,
    show cbankA.pay_strategy = PayStrategy.Once from rfl,
    show (cdep.percent : ℚ) = 0 from rfl,
    show cdep.date_open = dApr from rfl,
    show cdep.pay_strategy = PayStrategy.Once from rfl,
    cearn_candidate, cearn_current]
  norm_num [MIN_BENEFIT, mkSuggestion, csugg,
    show (cdep.name) = "d1" from rfl, show (cdep.bank) = "A" from rfl,
    show cbankA.name = "A" from rfl,
    show cbankA.percent = (0.36525 : ℚ) from rfl,
    show (cdep.amount : ℚ) = 100000 from rfl,
    show (cdep.percent : ℚ) = 0 from rfl]

/-- C2 counterexample: for the single deposit `cdep` at bank `cbankA` (whose
transfer commission is 100%), the candidate bank is the current bank itself,
the advisor emits a suggestion, yet the claim's net-benefit formula — which
charges `d.amount * candidateBank.transferCommission` unconditionally — is
far below `MIN_BENEFIT`, so the claimed "iff" fails on this input. -/
theorem claim_C2_counterexample :
    suggestReallocations [cdep] [cbankA] dApr = Except.ok [csugg] ∧
    csugg.depositName = cdep.name ∧
    (candidateFor (sortedBanks [cbankA]) cbankA cdep.amount (totalPerBank [cdep])
      (calc_sum_amount [cdep])).1 = cbankA ∧
    calc_earn cdep.amount cbankA.percent dApr cdep.date_close cbankA.pay_strategy
      - cdep.amount * cbankA.transfer_comission
      - calc_earn cdep.amount cdep.percent cdep.date_open cdep.date_close cdep.pay_strategy
      < MIN_BENEFIT := by
  refine ⟨cpipe_eval, rfl, ?_, ?_⟩
  · show (candidateFor [cbankA] cbankA 100000 (totalPerBank [cdep])
      (calc_sum_amount [cdep])).1 = cbankA
    rw [ccand_eval]
  · rw [show (cdep.amount : ℚ) = 100000 from rfl,
      show cbankA.percent = (0.36525 : ℚ) from rfl,
      show cdep.date_close = dMay from rfl,
      show cbankA.pay_strategy = PayStrategy.Once from rfl,
      show cbankA.transfer_comission = (1 : ℚ) from rfl,
      show (cdep.percent : ℚ) = 0 from rfl,
      show cdep.date_open = dApr from rfl,
      show cdep.pay_strategy = PayStrategy.Once from rfl,
      cearn_candidate, cearn_current]
    norm_num [MIN_BENEFIT]

/-- C10: on a concrete input the advisor emits a self-targeted suggestion:
the current bank remains the candidate with zero applied commission, and the
now-based earning at the current bank's rate exceeds the earning over the
deposit's original schedule by at least `MIN_BENEFIT`, so a "reopen at the
same bank" suggestion is produced. -/
theorem claim_C10 :
    suggestReallocations [cdep] [cbankA] dApr = Except.ok [csugg] ∧
    csugg.toBank = cdep.bank ∧ csugg.fromBank = cdep.bank ∧ csugg.comission = 0 ∧
    candidateFor (sortedBanks [cbankA]) cbankA cdep.amount (totalPerBank [cdep])
      (calc_sum_amount [cdep]) = (cbankA, 0) ∧
    MIN_BENEFIT ≤ calc_earn cdep.amount cbankA.percent dApr cdep.date_close cbankA.pay_strategy
      - calc_earn cdep.amount cdep.percent cdep.date_open cdep.date_close cdep.pay_strategy := by
  refine ⟨cpipe_eval, rfl, rfl, rfl, ?_, ?_⟩
  · show candidateFor [cbankA] cbankA 100000 (totalPerBank [cdep])
      (calc_sum_amount [cdep]) = (cbankA, 0)
    exact ccand_eval
  · rw [show (cdep.amount : ℚ) = 100000 from rfl,
      show cbankA.percent = (0.36525 : ℚ) from rfl,
      show cdep.date_close = dMay from rfl,
      show cbankA.pay_strategy = PayStrategy.Once from rfl,
      show (cdep.percent : ℚ) = 0 from rfl,
      show cdep.date_open = dApr from rfl,
      show cdep.pay_strategy = PayStrategy.Once from rfl,
      cearn_candidate, cearn_current]
    norm_num [MIN_BENEFIT]
